import Mathlib

/-!
Shallow embedding of the JournalClubAssistant repository
(src/summarizer.py, src/filter.py, src/crossref_client.py,
src/config.py, src/formatter.py, src/main.py) and proofs of the
specification claims about it.

Modelling conventions:
* Python strings are Lean `String`s; the character-level algorithms work
  on `List Char` (`String.data`).
* Python's `\s` character class and `str.strip()` use Unicode whitespace;
  they are modelled on the ASCII whitespace set (space, tab, newline,
  carriage return, vertical tab, form feed), which is what occurs in the
  data the program manipulates.
* `str.lower()` is modelled as ASCII lowercasing (`Char.toLower`).
* Fallible code returns `Option`/`Except`; the HTTP layer is modelled as
  a function from the page-request index to that request's outcome.
-/

/-- ASCII model of Python's `\s` class / `str.strip()` whitespace set. -/
def isPySpace (c : Char) : Bool :=
  c = ' ' || c = '\t' || c = '\n' || c = '\r' || c = '\x0b' || c = '\x0c'

/-- The character class `[A-Z]` used by the first-sentence regex. -/
def isUpperAZ (c : Char) : Bool := 'A' ≤ c && c ≤ 'Z'

/-- The sentence-terminating punctuation set `.!?`. -/
def isPunctC (c : Char) : Bool := c = '.' || c = '!' || c = '?'

/-- Scan for the first `>` ; on success return what follows it.
Models the tail of a regex match of `<[^>]+>` after the first non-`>`
character. -/
def scanToGt : List Char → Option (List Char)
  | [] => none
  | c :: rest => if c = '>' then some rest else scanToGt rest

/-- Given the characters after a `<`, decide whether `<[^>]+>` matches
here: at least one non-`>` character and then a `>`.  On success return
the input with the matched part removed. -/
def findTagEnd : List Char → Option (List Char)
  | [] => none
  | c :: rest => if c = '>' then none else scanToGt rest

theorem scanToGt_length {l r : List Char} (h : scanToGt l = some r) :
    r.length < l.length := by
  induction l with
  | nil => simp [scanToGt] at h
  | cons c rest ih =>
    simp only [scanToGt] at h
    by_cases hc : c = '>'
    · simp [hc] at h
      simp [← h]
    · simp [hc] at h
      exact Nat.lt_succ_of_lt (ih h)

theorem findTagEnd_length {l r : List Char} (h : findTagEnd l = some r) :
    r.length < l.length := by
  cases l with
  | nil => simp [findTagEnd] at h
  | cons c rest =>
    simp only [findTagEnd] at h
    by_cases hc : c = '>'
    · simp [hc] at h
    · simp [hc] at h
      exact Nat.lt_succ_of_lt (scanToGt_length h)

/-- Model of `re.sub(r"<[^>]+>", " ", text)`: each non-overlapping
occurrence of a tag is replaced by a single space, scanning left to
right. -/
def stripTagsR : List Char → List Char
  | [] => []
  | c :: rest =>
    if c = '<' then
      match h : findTagEnd rest with
      | some rest2 => ' ' :: stripTagsR rest2
      | none => c :: stripTagsR rest
    else c :: stripTagsR rest
termination_by l => l.length
decreasing_by
  · exact Nat.lt_succ_of_lt (findTagEnd_length h)
  · exact Nat.lt_succ_self _
  · exact Nat.lt_succ_self _

/-- Model of `re.sub(r"<[^>]+>", "", title)` (used on titles in
`_parse_item`): tags are removed with no replacement. -/
def stripTagsER : List Char → List Char
  | [] => []
  | c :: rest =>
    if c = '<' then
      match h : findTagEnd rest with
      | some rest2 => stripTagsER rest2
      | none => c :: stripTagsER rest
    else c :: stripTagsER rest
termination_by l => l.length
decreasing_by
  · exact Nat.lt_succ_of_lt (findTagEnd_length h)
  · exact Nat.lt_succ_self _
  · exact Nat.lt_succ_self _

/-- Structural one-pass state machine for the same tag-substitution
regex: `none` = outside any candidate tag; `some buf` = a `<` has been
seen and `buf` holds the characters read since.  `repl` is the
replacement text (`" "` in `strip_html`, `""` on titles).  Proven equal
to the reference functions `stripTagsR`/`stripTagsER` below; being
structurally recursive it also evaluates on concrete inputs by kernel
reduction. -/
def stripTagsGo (repl : List Char) : List Char → Option (List Char) → List Char
  | [], none => []
  | [], some buf => '<' :: buf
  | c :: rest, none =>
    if c = '<' then stripTagsGo repl rest (some [])
    else c :: stripTagsGo repl rest none
  | c :: rest, some buf =>
    if c = '>' then
      if buf = [] then '<' :: '>' :: stripTagsGo repl rest none
      else repl ++ stripTagsGo repl rest none
    else stripTagsGo repl rest (some (buf ++ [c]))

/-- Model of `re.sub(r"<[^>]+>", " ", text)` (the tag-removal pass of
`strip_html`), as the state machine. -/
def stripTags (l : List Char) : List Char := stripTagsGo [' '] l none

/-- Model of `re.sub(r"<[^>]+>", "", title)` (the tag-removal pass of
`_parse_item` on titles), as the state machine. -/
def stripTagsE (l : List Char) : List Char := stripTagsGo [] l none

/-- Model of `re.sub(r"\s+", " ", clean)`: every maximal run of
whitespace becomes a single space. -/
def collapseWs : List Char → List Char
  | [] => []
  | [c] => if isPySpace c then [' '] else [c]
  | c :: d :: rest =>
    if isPySpace c && isPySpace d then collapseWs (d :: rest)
    else (if isPySpace c then ' ' else c) :: collapseWs (d :: rest)

/-- Drop trailing whitespace (the right half of `str.strip()`). -/
def dropTrail (l : List Char) : List Char :=
  (l.reverse.dropWhile isPySpace).reverse

/-- Model of Python's `str.strip()`. -/
def pyStrip (l : List Char) : List Char :=
  dropTrail (l.dropWhile isPySpace)

/-- Python `str.strip()` at the `String` level. -/
def pyStripS (s : String) : String := ⟨pyStrip s.data⟩

/-- Whitespace normalisation `re.sub(r"\s+", " ", ·).strip()` as one
pass (the tail of `strip_html`). -/
def collapseStrip (l : List Char) : List Char :=
  pyStrip (collapseWs l)

/-- Function `strip_html` from src/summarizer.py at the character level:
empty input short-circuits, otherwise tags are replaced by spaces and
whitespace is collapsed and stripped. -/
def stripHtmlL (l : List Char) : List Char :=
  if l = [] then [] else collapseStrip (stripTags l)

/-- Function `strip_html` from src/summarizer.py. -/
def strip_html (s : String) : String := ⟨stripHtmlL s.data⟩


theorem stripTagsR_nil : stripTagsR [] = [] := by rw [stripTagsR]

theorem stripTagsR_cons_tag {rest rest2 : List Char}
    (h : findTagEnd rest = some rest2) :
    stripTagsR ('<' :: rest) = ' ' :: stripTagsR rest2 := by
  rw [stripTagsR]
  rw [if_pos rfl]
  split
  · rename_i x hx
    rw [h] at hx
    rw [Option.some_inj] at hx
    rw [hx]
  · rename_i hx
    rw [h] at hx
    exact absurd hx (Option.some_ne_none rest2)

theorem stripTagsR_cons_none {rest : List Char} (h : findTagEnd rest = none) :
    stripTagsR ('<' :: rest) = '<' :: stripTagsR rest := by
  rw [stripTagsR]
  rw [if_pos rfl]
  split
  · rename_i x hx
    rw [h] at hx
    exact absurd hx.symm (Option.some_ne_none x)
  · rfl

theorem stripTagsR_cons_ne {c : Char} {rest : List Char} (hc : c ≠ '<') :
    stripTagsR (c :: rest) = c :: stripTagsR rest := by
  rw [stripTagsR]
  rw [if_neg hc]

theorem stripTagsER_nil : stripTagsER [] = [] := by rw [stripTagsER]

theorem stripTagsER_cons_tag {rest rest2 : List Char}
    (h : findTagEnd rest = some rest2) :
    stripTagsER ('<' :: rest) = stripTagsER rest2 := by
  rw [stripTagsER]
  rw [if_pos rfl]
  split
  · rename_i x hx
    rw [h] at hx
    rw [Option.some_inj] at hx
    rw [hx]
  · rename_i hx
    rw [h] at hx
    exact absurd hx (Option.some_ne_none rest2)

theorem stripTagsER_cons_none {rest : List Char} (h : findTagEnd rest = none) :
    stripTagsER ('<' :: rest) = '<' :: stripTagsER rest := by
  rw [stripTagsER]
  rw [if_pos rfl]
  split
  · rename_i x hx
    rw [h] at hx
    exact absurd hx.symm (Option.some_ne_none x)
  · rfl

theorem stripTagsER_cons_ne {c : Char} {rest : List Char} (hc : c ≠ '<') :
    stripTagsER (c :: rest) = c :: stripTagsER rest := by
  rw [stripTagsER]
  rw [if_neg hc]

/-- No position of the list starts a tag match: at every `<` the
remainder fails `findTagEnd`. -/
def noTag : List Char → Bool
  | [] => true
  | c :: rest => (c != '<' || (findTagEnd rest).isNone) && noTag rest

theorem noTag_tail {c : Char} {t : List Char} (h : noTag (c :: t) = true) :
    noTag t = true := by
  simp only [noTag, Bool.and_eq_true] at h
  exact h.2

theorem scanToGt_eq_none_iff {l : List Char} : scanToGt l = none ↔ '>' ∉ l := by
  induction l with
  | nil => simp [scanToGt]
  | cons c rest ih =>
    simp only [scanToGt, List.mem_cons]
    by_cases hc : c = '>'
    · simp [hc]
    · rw [if_neg hc, ih]
      constructor
      · intro h hm
        rcases hm with hm | hm
        · exact hc hm.symm
        · exact h hm
      · intro h hm
        exact h (Or.inr hm)

theorem findTagEnd_eq_none_iff {l : List Char} :
    findTagEnd l = none ↔ (l = [] ∨ l.head? = some '>' ∨ '>' ∉ l) := by
  cases l with
  | nil => simp [findTagEnd]
  | cons c rest =>
    simp only [findTagEnd, List.head?_cons, List.mem_cons]
    by_cases hc : c = '>'
    · simp [hc]
    · rw [if_neg hc, scanToGt_eq_none_iff]
      constructor
      · intro h
        refine Or.inr (Or.inr ?_)
        intro hm
        rcases hm with hm | hm
        · exact hc hm.symm
        · exact h hm
      · intro h
        rcases h with h | h | h
        · exact absurd h (List.cons_ne_nil c rest)
        · rw [Option.some_inj] at h
          exact absurd h hc
        · intro hm
          exact h (Or.inr hm)

theorem stripTagsR_of_noTag {l : List Char} (h : noTag l = true) :
    stripTagsR l = l := by
  induction l with
  | nil => exact stripTagsR_nil
  | cons c rest ih =>
    simp only [noTag, Bool.and_eq_true, Bool.or_eq_true, bne_iff_ne,
      Option.isNone_iff_eq_none] at h
    obtain ⟨h1, h2⟩ := h
    by_cases hc : c = '<'
    · subst hc
      rcases h1 with h1 | h1
      · exact absurd rfl h1
      · rw [stripTagsR_cons_none h1, ih h2]
    · rw [stripTagsR_cons_ne hc, ih h2]

theorem stripTagsR_of_not_mem_gt {l : List Char} (h : '>' ∉ l) :
    stripTagsR l = l := by
  induction l with
  | nil => exact stripTagsR_nil
  | cons c rest ih =>
    have hrest : '>' ∉ rest := fun hm => h (List.mem_cons_of_mem c hm)
    have hnone : findTagEnd rest = none :=
      findTagEnd_eq_none_iff.mpr (Or.inr (Or.inr hrest))
    by_cases hc : c = '<'
    · subst hc
      rw [stripTagsR_cons_none hnone, ih hrest]
    · rw [stripTagsR_cons_ne hc, ih hrest]

theorem findTagEnd_stripTagsR {l : List Char} (h : findTagEnd l = none) :
    findTagEnd (stripTagsR l) = none := by
  cases l with
  | nil => rw [stripTagsR_nil]; exact h
  | cons c rest =>
    by_cases hc : c = '>'
    · subst hc
      have hne : ('>' : Char) ≠ '<' := by decide
      rw [stripTagsR_cons_ne hne]
      simp [findTagEnd]
    · have hscan : scanToGt rest = none := by
        simp only [findTagEnd, if_neg hc] at h
        exact h
      have hrest : '>' ∉ rest := scanToGt_eq_none_iff.mp hscan
      have hall : '>' ∉ c :: rest := by
        intro hm
        rcases List.mem_cons.mp hm with hm | hm
        · exact hc hm.symm
        · exact hrest hm
      rw [stripTagsR_of_not_mem_gt hall]
      exact h

theorem noTag_stripTagsR (l : List Char) : noTag (stripTagsR l) = true := by
  induction l using stripTagsR.induct with
  | case1 => rw [stripTagsR_nil]; rfl
  | case2 rest rest2 hfind ih =>
    rw [stripTagsR_cons_tag hfind]
    simp only [noTag, Bool.and_eq_true]
    refine ⟨?_, ih⟩
    simp
  | case3 rest hfind ih =>
    rw [stripTagsR_cons_none hfind]
    simp only [noTag, Bool.and_eq_true]
    refine ⟨?_, ih⟩
    simp [findTagEnd_stripTagsR hfind]
  | case4 c rest hc ih =>
    rw [stripTagsR_cons_ne hc]
    simp only [noTag, Bool.and_eq_true]
    refine ⟨?_, ih⟩
    simp [hc]

theorem noTag_singleton (c : Char) : noTag [c] = true := by
  simp [noTag, findTagEnd]

theorem collapseWs_ne_nil {l : List Char} (h : l ≠ []) : collapseWs l ≠ [] := by
  induction l using collapseWs.induct with
  | case1 => exact absurd rfl h
  | case2 c hc => simp [collapseWs, hc]
  | case3 c hc => simp [collapseWs, hc]
  | case4 c d rest hcd ih =>
    simpa [collapseWs, hcd] using ih (List.cons_ne_nil d rest)
  | case5 c d rest hcd ih => simp [collapseWs, hcd]

theorem head?_collapseWs_cons {d : Char} {rest : List Char}
    (hd : ¬ isPySpace d = true) :
    (collapseWs (d :: rest)).head? = some d := by
  cases rest with
  | nil => simp [collapseWs, hd]
  | cons e rest' =>
    have hnd : ¬ (isPySpace d && isPySpace e) = true := by simp [hd]
    simp [collapseWs, hnd, hd]

theorem mem_collapseWs {a : Char} {l : List Char} (h : a ∈ collapseWs l) :
    a ∈ l ∨ a = ' ' := by
  induction l using collapseWs.induct with
  | case1 => simp [collapseWs] at h
  | case2 c hc =>
    simp [collapseWs, hc] at h
    exact Or.inr h
  | case3 c hc =>
    simp [collapseWs, hc] at h
    exact Or.inl (by simp [h])
  | case4 c d rest hcd ih =>
    rw [show collapseWs (c :: d :: rest) = collapseWs (d :: rest) by
      simp [collapseWs, hcd]] at h
    rcases ih h with hm | hm
    · exact Or.inl (List.mem_cons_of_mem c hm)
    · exact Or.inr hm
  | case5 c d rest hcd ih =>
    rw [show collapseWs (c :: d :: rest)
        = (if isPySpace c then ' ' else c) :: collapseWs (d :: rest) by
      simp [collapseWs, hcd]] at h
    rcases List.mem_cons.mp h with hm | hm
    · by_cases hc : isPySpace c = true
      · rw [if_pos hc] at hm
        exact Or.inr hm
      · rw [if_neg hc] at hm
        exact Or.inl (by simp [hm])
    · rcases ih hm with hm2 | hm2
      · exact Or.inl (List.mem_cons_of_mem c hm2)
      · exact Or.inr hm2

theorem findTagEnd_collapseWs {l : List Char} (h : findTagEnd l = none) :
    findTagEnd (collapseWs l) = none := by
  rcases findTagEnd_eq_none_iff.mp h with h | h | h
  · subst h
    simp [collapseWs, findTagEnd]
  · cases l with
    | nil => simp [collapseWs, findTagEnd]
    | cons c rest =>
      rw [List.head?_cons, Option.some_inj] at h
      subst h
      have hgt : ¬ isPySpace '>' = true := by decide
      have hh := @head?_collapseWs_cons '>' rest hgt
      cases hcw : collapseWs ('>' :: rest) with
      | nil => rfl
      | cons x xs =>
        rw [hcw, List.head?_cons, Option.some_inj] at hh
        subst hh
        simp [findTagEnd]
  · refine findTagEnd_eq_none_iff.mpr (Or.inr (Or.inr ?_))
    intro hm
    rcases mem_collapseWs hm with hm | hm
    · exact h hm
    · exact absurd hm (by decide)

theorem noTag_collapseWs {l : List Char} (h : noTag l = true) :
    noTag (collapseWs l) = true := by
  induction l using collapseWs.induct with
  | case1 => exact h
  | case2 c hc =>
    rw [show collapseWs [c] = [' '] by simp [collapseWs, hc]]
    exact noTag_singleton ' '
  | case3 c hc =>
    rw [show collapseWs [c] = [c] by simp [collapseWs, hc]]
    exact noTag_singleton c
  | case4 c d rest hcd ih =>
    rw [show collapseWs (c :: d :: rest) = collapseWs (d :: rest) by
      simp [collapseWs, hcd]]
    exact ih (noTag_tail h)
  | case5 c d rest hcd ih =>
    rw [show collapseWs (c :: d :: rest)
        = (if isPySpace c then ' ' else c) :: collapseWs (d :: rest) by
      simp [collapseWs, hcd]]
    have ht := ih (noTag_tail h)
    simp only [noTag, Bool.and_eq_true, Bool.or_eq_true, bne_iff_ne,
      Option.isNone_iff_eq_none]
    refine ⟨?_, ht⟩
    by_cases hc : isPySpace c = true
    · rw [if_pos hc]
      exact Or.inl (by decide)
    · rw [if_neg hc]
      by_cases hlt : c = '<'
      · subst hlt
        simp only [noTag, Bool.and_eq_true, Bool.or_eq_true, bne_iff_ne,
          Option.isNone_iff_eq_none] at h
        rcases h.1 with h1 | h1
        · exact absurd rfl h1
        · exact Or.inr (findTagEnd_collapseWs h1)
      · exact Or.inl hlt

theorem noTag_dropWhile {l : List Char} (h : noTag l = true) :
    noTag (l.dropWhile isPySpace) = true := by
  induction l with
  | nil => exact h
  | cons c rest ih =>
    rw [List.dropWhile_cons]
    by_cases hc : isPySpace c = true
    · rw [if_pos hc]
      exact ih (noTag_tail h)
    · rw [if_neg hc]
      exact h

theorem findTagEnd_append_left {a b : List Char}
    (h : findTagEnd (a ++ b) = none) : findTagEnd a = none := by
  rcases findTagEnd_eq_none_iff.mp h with h | h | h
  · rcases List.append_eq_nil.mp h with ⟨h1, _⟩
    subst h1
    rfl
  · cases a with
    | nil => rfl
    | cons c a' =>
      rw [List.cons_append, List.head?_cons, Option.some_inj] at h
      subst h
      simp [findTagEnd]
  · refine findTagEnd_eq_none_iff.mpr (Or.inr (Or.inr ?_))
    intro hm
    exact h (List.mem_append_left b hm)

theorem noTag_append_left {a b : List Char} (h : noTag (a ++ b) = true) :
    noTag a = true := by
  induction a with
  | nil => rfl
  | cons c a' ih =>
    rw [List.cons_append] at h
    simp only [noTag, Bool.and_eq_true, Bool.or_eq_true, bne_iff_ne,
      Option.isNone_iff_eq_none] at h ⊢
    obtain ⟨h1, h2⟩ := h
    refine ⟨?_, ih h2⟩
    rcases h1 with h1 | h1
    · exact Or.inl h1
    · exact Or.inr (findTagEnd_append_left h1)

theorem dropTrail_append (l : List Char) :
    dropTrail l ++ (l.reverse.takeWhile isPySpace).reverse = l := by
  unfold dropTrail
  rw [← List.reverse_append, List.takeWhile_append_dropWhile,
    List.reverse_reverse]

theorem noTag_dropTrail {l : List Char} (h : noTag l = true) :
    noTag (dropTrail l) = true := by
  have hd := dropTrail_append l
  exact @noTag_append_left (dropTrail l)
    ((l.reverse.takeWhile isPySpace).reverse) (by rw [hd]; exact h)

theorem noTag_collapseStrip {l : List Char} (h : noTag l = true) :
    noTag (collapseStrip l) = true :=
  noTag_dropTrail (noTag_dropWhile (noTag_collapseWs h))

/-- Whitespace in the list is normalised: every whitespace character is
a plain space and no space is followed by whitespace. -/
def wsOk : List Char → Bool
  | [] => true
  | [c] => !isPySpace c || c == ' '
  | c :: d :: rest => (!isPySpace c || (c == ' ' && !isPySpace d)) && wsOk (d :: rest)

theorem wsOk_tail {c : Char} {t : List Char} (h : wsOk (c :: t) = true) :
    wsOk t = true := by
  cases t with
  | nil => rfl
  | cons d rest =>
    simp only [wsOk, Bool.and_eq_true] at h
    exact h.2

theorem wsOk_head {c : Char} {t : List Char} (h : wsOk (c :: t) = true) :
    (!isPySpace c || c == ' ') = true := by
  cases t with
  | nil => exact h
  | cons d rest =>
    simp only [wsOk, Bool.and_eq_true, Bool.or_eq_true] at h
    rcases h.1 with h1 | h1
    · simp [h1]
    · simp [h1.1]

theorem wsOk_collapseWs (l : List Char) : wsOk (collapseWs l) = true := by
  induction l using collapseWs.induct with
  | case1 => rfl
  | case2 c hc =>
    rw [show collapseWs [c] = [' '] by simp [collapseWs, hc]]
    decide
  | case3 c hc =>
    rw [show collapseWs [c] = [c] by simp [collapseWs, hc]]
    simp [wsOk, hc]
  | case4 c d rest hcd ih =>
    rw [show collapseWs (c :: d :: rest) = collapseWs (d :: rest) by
      simp [collapseWs, hcd]]
    exact ih
  | case5 c d rest hcd ih =>
    rw [show collapseWs (c :: d :: rest)
        = (if isPySpace c then ' ' else c) :: collapseWs (d :: rest) by
      simp [collapseWs, hcd]]
    cases hcw : collapseWs (d :: rest) with
    | nil => exact absurd hcw (collapseWs_ne_nil (List.cons_ne_nil d rest))
    | cons e t' =>
      simp only [wsOk, Bool.and_eq_true]
      constructor
      · by_cases hc : isPySpace c = true
        · have hd : ¬ isPySpace d = true := by
            intro hd
            exact hcd (by simp [hc, hd])
          have hh := @head?_collapseWs_cons d rest hd
          rw [hcw, List.head?_cons, Option.some_inj] at hh
          subst hh
          rw [if_pos hc]
          simp [hd]
        · rw [if_neg hc]
          simp [hc]
      · rw [← hcw]
        exact ih

theorem wsOk_dropWhile {l : List Char} (h : wsOk l = true) :
    wsOk (l.dropWhile isPySpace) = true := by
  induction l with
  | nil => exact h
  | cons c rest ih =>
    rw [List.dropWhile_cons]
    by_cases hc : isPySpace c = true
    · rw [if_pos hc]
      exact ih (wsOk_tail h)
    · rw [if_neg hc]
      exact h

theorem wsOk_append_left {a b : List Char} (h : wsOk (a ++ b) = true) :
    wsOk a = true := by
  induction a with
  | nil => rfl
  | cons c a' ih =>
    rw [List.cons_append] at h
    cases ha : a' with
    | nil => exact wsOk_head h
    | cons e a'' =>
      subst ha
      rw [List.cons_append] at h
      simp only [wsOk, Bool.and_eq_true] at h ⊢
      refine ⟨h.1, ?_⟩
      have := ih (by rw [List.cons_append]; exact h.2)
      exact this

theorem wsOk_dropTrail {l : List Char} (h : wsOk l = true) :
    wsOk (dropTrail l) = true := by
  have hd := dropTrail_append l
  exact @wsOk_append_left (dropTrail l)
    ((l.reverse.takeWhile isPySpace).reverse) (by rw [hd]; exact h)

/-- The first character, when present, is not whitespace. -/
def headOk : List Char → Bool
  | [] => true
  | c :: _ => !isPySpace c

/-- The last character, when present, is not whitespace. -/
def lastOk (l : List Char) : Bool := headOk l.reverse

theorem headOk_dropWhile (l : List Char) :
    headOk (l.dropWhile isPySpace) = true := by
  induction l with
  | nil => rfl
  | cons c rest ih =>
    rw [List.dropWhile_cons]
    by_cases hc : isPySpace c = true
    · rw [if_pos hc]
      exact ih
    · rw [if_neg hc]
      simp [headOk, hc]

theorem headOk_append_left {a b : List Char} (h : headOk (a ++ b) = true) :
    headOk a = true := by
  cases a with
  | nil => rfl
  | cons c a' =>
    rw [List.cons_append] at h
    exact h

theorem lastOk_dropTrail (l : List Char) : lastOk (dropTrail l) = true := by
  unfold lastOk dropTrail
  rw [List.reverse_reverse]
  exact headOk_dropWhile l.reverse

theorem collapseWs_of_wsOk {l : List Char} (h : wsOk l = true) :
    collapseWs l = l := by
  induction l using collapseWs.induct with
  | case1 => rfl
  | case2 c hc =>
    have hce : c = ' ' := by
      have := @wsOk_head c [] h
      simp [hc] at this
      exact this
    simp [collapseWs, hc, hce]
  | case3 c hc => simp [collapseWs, hc]
  | case4 c d rest hcd ih =>
    exfalso
    simp only [Bool.and_eq_true] at hcd
    obtain ⟨hc, hd⟩ := hcd
    have h1 := wsOk_head h
    simp only [Bool.or_eq_true, Bool.not_eq_true', Bool.and_eq_true, beq_iff_eq] at h1
    rcases h1 with h1 | h1
    · rw [hc] at h1
      exact Bool.false_ne_true h1.symm
    · simp only [wsOk, Bool.and_eq_true, Bool.or_eq_true, Bool.not_eq_true',
        Bool.and_eq_true, beq_iff_eq] at h
      rcases h.1 with h2 | h2
      · rw [hc] at h2
        exact Bool.false_ne_true h2.symm
      · rw [hd] at h2
        exact Bool.false_ne_true h2.2.symm
  | case5 c d rest hcd ih =>
    rw [show collapseWs (c :: d :: rest)
        = (if isPySpace c then ' ' else c) :: collapseWs (d :: rest) by
      simp [collapseWs, hcd]]
    rw [ih (wsOk_tail h)]
    by_cases hc : isPySpace c = true
    · have hce : c = ' ' := by
        have := wsOk_head h
        simp [hc] at this
        exact this
      rw [if_pos hc, hce]
    · rw [if_neg hc]

theorem dropWhile_of_headOk {l : List Char} (h : headOk l = true) :
    l.dropWhile isPySpace = l := by
  cases l with
  | nil => rfl
  | cons c rest =>
    simp only [headOk, Bool.not_eq_true'] at h
    rw [List.dropWhile_cons, if_neg (by simp [h])]

theorem dropTrail_of_lastOk {l : List Char} (h : lastOk l = true) :
    dropTrail l = l := by
  unfold lastOk at h
  unfold dropTrail
  rw [dropWhile_of_headOk h, List.reverse_reverse]

theorem pyStrip_of_ok {l : List Char} (h1 : headOk l = true)
    (h2 : lastOk l = true) : pyStrip l = l := by
  unfold pyStrip
  rw [dropWhile_of_headOk h1, dropTrail_of_lastOk h2]

theorem wsOk_collapseStrip (l : List Char) : wsOk (collapseStrip l) = true :=
  wsOk_dropTrail (wsOk_dropWhile (wsOk_collapseWs l))

theorem headOk_collapseStrip (l : List Char) :
    headOk (collapseStrip l) = true := by
  unfold collapseStrip pyStrip
  have h1 : headOk ((collapseWs l).dropWhile isPySpace) = true :=
    headOk_dropWhile _
  have hd := dropTrail_append ((collapseWs l).dropWhile isPySpace)
  exact headOk_append_left (by rw [hd]; exact h1)

theorem lastOk_collapseStrip (l : List Char) :
    lastOk (collapseStrip l) = true := lastOk_dropTrail _

theorem collapseStrip_of_norm {l : List Char} (h1 : wsOk l = true)
    (h2 : headOk l = true) (h3 : lastOk l = true) : collapseStrip l = l := by
  unfold collapseStrip
  rw [collapseWs_of_wsOk h1, pyStrip_of_ok h2 h3]

theorem scanToGt_append {m r : List Char} (h : '>' ∉ m) :
    scanToGt (m ++ '>' :: r) = some r := by
  induction m with
  | nil => simp [scanToGt]
  | cons c m' ih =>
    have hc : c ≠ '>' := fun hc => h (by simp [hc])
    rw [List.cons_append, scanToGt, if_neg hc]
    exact ih (fun hm => h (List.mem_cons_of_mem c hm))

theorem findTagEnd_append_gt {buf r : List Char} (hne : buf ≠ [])
    (h : '>' ∉ buf) : findTagEnd (buf ++ '>' :: r) = some r := by
  cases buf with
  | nil => exact absurd rfl hne
  | cons b bs =>
    have hb : b ≠ '>' := fun hb => h (by simp [hb])
    rw [List.cons_append, findTagEnd, if_neg hb]
    exact scanToGt_append (fun hm => h (List.mem_cons_of_mem b hm))

theorem stripTagsGo_eq (l : List Char) :
    stripTagsGo [' '] l none = stripTagsR l
    ∧ ∀ buf, '>' ∉ buf →
        stripTagsGo [' '] l (some buf) = stripTagsR ('<' :: (buf ++ l)) := by
  induction l with
  | nil =>
    constructor
    · rw [stripTagsGo, stripTagsR_nil]
    · intro buf hb
      rw [stripTagsGo, List.append_nil,
        stripTagsR_cons_none (findTagEnd_eq_none_iff.mpr (Or.inr (Or.inr hb))),
        stripTagsR_of_not_mem_gt hb]
  | cons c rest ih =>
    constructor
    · by_cases hc : c = '<'
      · subst hc
        rw [stripTagsGo, if_pos rfl]
        have := (ih.2 [] (by simp))
        rw [List.nil_append] at this
        exact this
      · rw [stripTagsGo, if_neg hc, stripTagsR_cons_ne hc, ih.1]
    · intro buf hb
      by_cases hc : c = '>'
      · subst hc
        by_cases hbuf : buf = []
        · subst hbuf
          rw [stripTagsGo, if_pos rfl, if_pos rfl, List.nil_append,
            stripTagsR_cons_none (by rw [findTagEnd, if_pos rfl]),
            stripTagsR_cons_ne (by decide), ih.1]
        · rw [stripTagsGo, if_pos rfl, if_neg hbuf,
            stripTagsR_cons_tag (findTagEnd_append_gt hbuf hb), ih.1]
          rfl
      · rw [stripTagsGo, if_neg hc]
        have hb2 : '>' ∉ buf ++ [c] := by
          intro hm
          rcases List.mem_append.mp hm with hm | hm
          · exact hb hm
          · rw [List.mem_singleton] at hm
            exact hc hm.symm
        rw [ih.2 (buf ++ [c]) hb2, List.append_assoc, List.singleton_append]

theorem stripTagsR_eq_go (l : List Char) :
    stripTagsR l = stripTagsGo [' '] l none := ((stripTagsGo_eq l).1).symm

theorem stripTagsER_of_not_mem_gt {l : List Char} (h : '>' ∉ l) :
    stripTagsER l = l := by
  induction l with
  | nil => exact stripTagsER_nil
  | cons c rest ih =>
    have hrest : '>' ∉ rest := fun hm => h (List.mem_cons_of_mem c hm)
    have hnone : findTagEnd rest = none :=
      findTagEnd_eq_none_iff.mpr (Or.inr (Or.inr hrest))
    by_cases hc : c = '<'
    · subst hc
      rw [stripTagsER_cons_none hnone, ih hrest]
    · rw [stripTagsER_cons_ne hc, ih hrest]

theorem stripTagsERGo_eq (l : List Char) :
    stripTagsGo [] l none = stripTagsER l
    ∧ ∀ buf, '>' ∉ buf →
        stripTagsGo [] l (some buf) = stripTagsER ('<' :: (buf ++ l)) := by
  induction l with
  | nil =>
    constructor
    · rw [stripTagsGo, stripTagsER_nil]
    · intro buf hb
      rw [stripTagsGo, List.append_nil,
        stripTagsER_cons_none (findTagEnd_eq_none_iff.mpr (Or.inr (Or.inr hb))),
        stripTagsER_of_not_mem_gt hb]
  | cons c rest ih =>
    constructor
    · by_cases hc : c = '<'
      · subst hc
        rw [stripTagsGo, if_pos rfl]
        have := (ih.2 [] (by simp))
        rw [List.nil_append] at this
        exact this
      · rw [stripTagsGo, if_neg hc, stripTagsER_cons_ne hc, ih.1]
    · intro buf hb
      by_cases hc : c = '>'
      · subst hc
        by_cases hbuf : buf = []
        · subst hbuf
          rw [stripTagsGo, if_pos rfl, if_pos rfl, List.nil_append,
            stripTagsER_cons_none (by rw [findTagEnd, if_pos rfl]),
            stripTagsER_cons_ne (by decide), ih.1]
        · rw [stripTagsGo, if_pos rfl, if_neg hbuf,
            stripTagsER_cons_tag (findTagEnd_append_gt hbuf hb), ih.1]
          rfl
      · rw [stripTagsGo, if_neg hc]
        have hb2 : '>' ∉ buf ++ [c] := by
          intro hm
          rcases List.mem_append.mp hm with hm | hm
          · exact hb hm
          · rw [List.mem_singleton] at hm
            exact hc hm.symm
        rw [ih.2 (buf ++ [c]) hb2, List.append_assoc, List.singleton_append]

theorem stripTagsER_eq_go (l : List Char) :
    stripTagsER l = stripTagsGo [] l none := ((stripTagsERGo_eq l).1).symm

/-- The pipeline's tag stripper agrees with the reference regex
formulation. -/
theorem stripTags_eq_R (l : List Char) : stripTags l = stripTagsR l :=
  (stripTagsGo_eq l).1

/-- The title tag stripper agrees with the reference regex
formulation. -/
theorem stripTagsE_eq_R (l : List Char) : stripTagsE l = stripTagsER l :=
  (stripTagsERGo_eq l).1

theorem stripHtmlL_idem (l : List Char) :
    stripHtmlL (stripHtmlL l) = stripHtmlL l := by
  by_cases hl : l = []
  · subst hl
    rfl
  · rw [show stripHtmlL l = collapseStrip (stripTags l) from by
      rw [stripHtmlL, if_neg hl]]
    by_cases hoe : collapseStrip (stripTags l) = []
    · rw [hoe]
      rfl
    · rw [stripHtmlL, if_neg hoe]
      have hnt : noTag (collapseStrip (stripTags l)) = true :=
        noTag_collapseStrip (by rw [stripTags_eq_R]; exact noTag_stripTagsR l)
      rw [show stripTags (collapseStrip (stripTags l))
          = collapseStrip (stripTags l) from by
        rw [stripTags_eq_R]
        exact stripTagsR_of_noTag hnt]
      exact collapseStrip_of_norm (wsOk_collapseStrip _)
        (headOk_collapseStrip _) (lastOk_collapseStrip _)

/-- C10: `strip_html` is idempotent — its output contains no remaining
tag match, no leading or trailing whitespace, and no run of more than
one whitespace character, so applying it a second time changes
nothing. -/
theorem strip_html_idempotent (s : String) :
    strip_html (strip_html s) = strip_html s :=
  congrArg String.mk (stripHtmlL_idem s.data)

/-- Helper for Python's `in`: does `hay` start with `needle`? -/
def startsWithL : List Char → List Char → Bool
  | [], _ => true
  | _ :: _, [] => false
  | a :: as, b :: bs => a == b && startsWithL as bs

/-- Model of Python's substring operator `needle in hay`. -/
def containsSub (needle : List Char) : List Char → Bool
  | [] => needle.isEmpty
  | c :: rest => startsWithL needle (c :: rest) || containsSub needle rest

/-- Model of Python's `str.lower()` (ASCII case folding). -/
def lowerS (s : String) : String := ⟨s.data.map Char.toLower⟩

/-- Dataclass `Paper` from src/crossref_client.py. -/
structure Paper where
  title : String
  doi : String
  url : String
  abstract : String
  published_date : String
  journal_name : String
  authors : List String
deriving DecidableEq

/-- Dataclass `FilteredPaper` from src/filter.py. -/
structure FilteredPaper where
  paper : Paper
  matched_keywords : List String
deriving DecidableEq

/-- The inner keyword loop of `filter_papers`: walk the configured
keywords in order, keeping those whose lowercase form occurs in the
lowercased title or lowercased stripped abstract. -/
def matchedKeywords (keywords : List String)
    (title_lower abstract_lower : List Char) : List String :=
  match keywords with
  | [] => []
  | kw :: rest =>
    if containsSub (lowerS kw).data title_lower
        || containsSub (lowerS kw).data abstract_lower then
      kw :: matchedKeywords rest title_lower abstract_lower
    else matchedKeywords rest title_lower abstract_lower

/-- Function `filter_papers` from src/filter.py. -/
def filter_papers (papers : List Paper) (keywords : List String) :
    List FilteredPaper :=
  if keywords = [] then
    papers.map (fun p => { paper := p, matched_keywords := [] })
  else
    papers.filterMap (fun paper =>
      let title_lower := (lowerS paper.title).data
      let abstract_lower := (lowerS (strip_html paper.abstract)).data
      let matched := matchedKeywords keywords title_lower abstract_lower
      if matched = [] then none
      else some { paper := paper, matched_keywords := matched })

/-- Specification-side predicate: keyword `kw` occurs case-insensitively
in the paper's title or in its tag-stripped abstract. -/
def kwMatches (kw : String) (p : Paper) : Bool :=
  containsSub (lowerS kw).data (lowerS p.title).data
    || containsSub (lowerS kw).data (lowerS (strip_html p.abstract)).data

theorem matchedKeywords_eq_filter (keywords : List String) (p : Paper) :
    matchedKeywords keywords (lowerS p.title).data
        (lowerS (strip_html p.abstract)).data
      = keywords.filter (fun kw => kwMatches kw p) := by
  induction keywords with
  | nil => rfl
  | cons kw rest ih =>
    rw [matchedKeywords, List.filter_cons]
    by_cases h : kwMatches kw p = true
    · rw [if_pos (by rw [kwMatches] at h; exact h), if_pos h, ih]
    · rw [if_neg (by rw [kwMatches] at h; exact h), if_neg h, ih]

/-- C1: `filter_papers` returns exactly the papers of `P` whose title
or tag-stripped abstract contains at least one keyword of `K` as a
case-insensitive substring, in the original relative order, and each
retained paper's `matched_keywords` is exactly the subsequence of `K`
that matches it, in `K`'s configured order; with `K = []` every paper
is returned with an empty matched-keyword list. -/
theorem filter_papers_spec (papers : List Paper) (keywords : List String) :
    filter_papers papers keywords
      = (papers.filter (fun p =>
            keywords.isEmpty || keywords.any (fun kw => kwMatches kw p))).map
          (fun p =>
            { paper := p,
              matched_keywords :=
                keywords.filter (fun kw => kwMatches kw p) }) := by
  by_cases hk : keywords = []
  · subst hk
    rw [filter_papers, if_pos rfl]
    simp
  · rw [filter_papers, if_neg hk]
    have hke : keywords.isEmpty = false := by
      cases keywords with
      | nil => exact absurd rfl hk
      | cons a b => rfl
    induction papers with
    | nil => rfl
    | cons p ps ih =>
      rw [List.filterMap_cons, List.filter_cons]
      simp only []
      rw [matchedKeywords_eq_filter]
      simp only [hke, Bool.false_or] at ih ⊢
      by_cases hmatch : keywords.any (fun kw => kwMatches kw p) = true
      · have hne : keywords.filter (fun kw => kwMatches kw p) ≠ [] := by
          intro hnil
          obtain ⟨kw, hkw, hkwm⟩ := List.any_eq_true.mp hmatch
          rw [List.filter_eq_nil_iff] at hnil
          exact hnil kw hkw hkwm
        rw [if_neg hne, if_pos hmatch, ih, List.map_cons]
      · have hnil : keywords.filter (fun kw => kwMatches kw p) = [] := by
          rw [List.filter_eq_nil_iff]
          intro kw hkw hkwm
          exact hmatch (List.any_eq_true.mpr ⟨kw, hkw, hkwm⟩)
        rw [if_pos hnil, if_neg hmatch, ih]

/-- The lookbehind `(?<=[.!?])` of the sentence-splitting regex,
applied to the previously scanned character. -/
def prevPunct : Option Char → Bool
  | none => false
  | some p => isPunctC p

/-- After at least zero further whitespace characters, an ASCII
uppercase letter follows. -/
def upperAfterRun1 : List Char → Bool
  | [] => false
  | c :: rest => if isPySpace c then upperAfterRun1 rest else isUpperAZ c

/-- Does `\s+(?=[A-Z])` match at this position: one or more whitespace
characters whose maximal run is followed by an uppercase letter? -/
def upperAfterRun : List Char → Bool
  | [] => false
  | c :: rest => if isPySpace c then upperAfterRun1 rest else false

/-- The first segment of `re.split(r'(?<=[.!?])\s+(?=[A-Z])', clean,
maxsplit=1)`: consume characters until a split point — a whitespace run
preceded by sentence punctuation and followed by an uppercase
letter. -/
def firstSeg (prev : Option Char) : List Char → List Char
  | [] => []
  | c :: rest =>
    if prevPunct prev && upperAfterRun (c :: rest) then []
    else c :: firstSeg (some c) rest

/-- Does the list end in `.`, `!` or `?` (Python `s[-1] in ".!?"`)? -/
def endsPunct (l : List Char) : Bool :=
  match l.getLast? with
  | some c => isPunctC c
  | none => false

/-- Function `extract_summary` from src/summarizer.py.  Here `none` models a Python
`None` argument: `none` and falsy strings take the fallback branch of
`if not abstract or not abstract.strip()`. -/
def extract_summary (abstract : Option String) : String :=
  match abstract with
  | none => "No abstract available."
  | some a =>
    if a.data = [] ∨ pyStrip a.data = [] then "No abstract available."
    else
      let clean := stripHtmlL a.data
      if clean = [] then "No abstract available."
      else
        let first0 := pyStrip (firstSeg none clean)
        let first1 :=
          if first0 ≠ [] ∧ endsPunct first0 = false then first0 ++ ['.']
          else first0
        if 300 < first1.length then ⟨first1.take 297 ++ ['.', '.', '.']⟩
        else ⟨first1⟩

theorem dropWhile_ne_nil_of_mem {m : List Char} {c : Char} (hm : c ∈ m)
    (hc : isPySpace c = false) : m.dropWhile isPySpace ≠ [] := by
  induction m with
  | nil => exact absurd hm (List.not_mem_nil c)
  | cons d m' ih =>
    rw [List.dropWhile_cons]
    by_cases hd : isPySpace d = true
    · rw [if_pos hd]
      have hcm : c ∈ m' := by
        rcases List.mem_cons.mp hm with hm | hm
        · rw [hm] at hc
          rw [hc] at hd
          exact absurd hd (Bool.false_ne_true)
        · exact hm
      exact ih hcm
    · rw [if_neg hd]
      exact List.cons_ne_nil d m'

theorem pyStrip_ne_nil {l : List Char} (h1 : headOk l = true) (h2 : l ≠ []) :
    pyStrip l ≠ [] := by
  cases l with
  | nil => exact absurd rfl h2
  | cons c t =>
    have hc : isPySpace c = false := by
      simp only [headOk, Bool.not_eq_true'] at h1
      exact h1
    rw [pyStrip, dropWhile_of_headOk h1, dropTrail]
    intro hnil
    rw [List.reverse_eq_nil_iff] at hnil
    exact @dropWhile_ne_nil_of_mem (c :: t).reverse c
      (by simp) hc hnil

theorem endsPunct_concat_dot (l : List Char) :
    endsPunct (l ++ ['.']) = true := by
  rw [endsPunct, List.getLast?_concat]
  rfl

theorem endsPunct_concat_dots (l : List Char) :
    endsPunct (l ++ ['.', '.', '.']) = true := by
  rw [show l ++ ['.', '.', '.'] = (l ++ ['.', '.']) ++ ['.'] by
    rw [List.append_assoc]
    rfl]
  exact endsPunct_concat_dot _

/-- C2: `extract_summary` always returns a string of length at most 300
that ends in `.`, `!` or `?`; for `None`, the empty string, or an
abstract whose tag-stripped form is empty, it returns exactly the
literal `"No abstract available."`. -/
theorem extract_summary_spec (a : Option String) :
    ((extract_summary a).length ≤ 300
      ∧ endsPunct (extract_summary a).data = true)
    ∧ extract_summary none = "No abstract available."
    ∧ (∀ s : String, s = "" ∨ strip_html s = "" →
        extract_summary (some s) = "No abstract available.") := by
  refine ⟨?_, rfl, ?_⟩
  · cases a with
    | none => exact ⟨by decide, by decide⟩
    | some s =>
      by_cases h1 : s.data = [] ∨ pyStrip s.data = []
      · rw [extract_summary, if_pos h1]
        exact ⟨by decide, by decide⟩
      · have hsd : s.data ≠ [] := fun h => h1 (Or.inl h)
        by_cases h2 : stripHtmlL s.data = []
        · rw [extract_summary, if_neg h1]
          simp only []
          rw [if_pos h2]
          exact ⟨by decide, by decide⟩
        · have hclean : stripHtmlL s.data = collapseStrip (stripTags s.data) := by
            rw [stripHtmlL, if_neg hsd]
          have hho : headOk (stripHtmlL s.data) = true := by
            rw [hclean]
            exact headOk_collapseStrip _
          obtain ⟨c, t, hct⟩ : ∃ c t, stripHtmlL s.data = c :: t := by
            cases hc2 : stripHtmlL s.data with
            | nil => exact absurd hc2 h2
            | cons c t => exact ⟨c, t, rfl⟩
          have hcs : isPySpace c = false := by
            rw [hct] at hho
            simpa [headOk, Bool.not_eq_true'] using hho
          have hfs : firstSeg none (stripHtmlL s.data)
              = c :: firstSeg (some c) t := by
            rw [hct, firstSeg]
            rfl
          have hfo : headOk (firstSeg none (stripHtmlL s.data)) = true := by
            rw [hfs]
            simp [headOk, hcs]
          have hfne : firstSeg none (stripHtmlL s.data) ≠ [] := by
            rw [hfs]
            exact List.cons_ne_nil _ _
          rw [extract_summary, if_neg h1]
          simp only []
          rw [if_neg h2]
          set f0 := pyStrip (firstSeg none (stripHtmlL s.data)) with hf0
          have h0ne : f0 ≠ [] := pyStrip_ne_nil hfo hfne
          set f1 := (if f0 ≠ [] ∧ endsPunct f0 = false then f0 ++ ['.'] else f0)
            with hf1
          have hne1 : f1 ≠ [] ∧ endsPunct f1 = true := by
            rw [hf1]
            by_cases hp : endsPunct f0 = false
            · rw [if_pos ⟨h0ne, hp⟩]
              refine ⟨?_, endsPunct_concat_dot _⟩
              simp
            · rw [if_neg (fun hx => hp hx.2)]
              have hpt : endsPunct f0 = true := by
                cases hpev : endsPunct f0 with
                | false => exact absurd hpev hp
                | true => rfl
              exact ⟨h0ne, hpt⟩
          by_cases hlen : 300 < f1.length
          · rw [if_pos hlen]
            constructor
            · show (f1.take 297 ++ ['.', '.', '.']).length ≤ 300
              rw [List.length_append, List.length_take]
              have hm : min 297 f1.length = 297 := Nat.min_eq_left (by omega)
              rw [hm]
              decide
            · show endsPunct (f1.take 297 ++ ['.', '.', '.']) = true
              exact endsPunct_concat_dots _
          · rw [if_neg hlen]
            constructor
            · show f1.length ≤ 300
              omega
            · show endsPunct f1 = true
              exact hne1.2
  · intro s hs
    by_cases h1 : s.data = [] ∨ pyStrip s.data = []
    · rw [extract_summary, if_pos h1]
    · rcases hs with hs | hs
      · exact absurd (Or.inl (show s.data = [] by rw [hs])) h1
      · have h2 : stripHtmlL s.data = [] := congrArg String.data hs
        rw [extract_summary, if_neg h1]
        simp only []
        rw [if_pos h2]

/-- C2 witness: the theorem applied at the concrete input `""`,
discharging the fallback hypothesis. -/
theorem extract_summary_spec_witness :
    ((extract_summary (some "")).length ≤ 300
      ∧ endsPunct (extract_summary (some "")).data = true)
    ∧ extract_summary (some "") = "No abstract available." :=
  ⟨(extract_summary_spec (some "")).1,
   (extract_summary_spec (some "")).2.2 "" (Or.inl rfl)⟩

/-- The effective choice at prompt `i`: `Prompt.ask` with `default="y"`
turns empty operator input into `"y"`. -/
def promptChoice (inputs : Nat → String) (i : Nat) : String :=
  if inputs i = "" then "y" else inputs i

/-- The loop body of `_interactive_review` from src/main.py: walk the
filtered papers, collecting on `y`, skipping on `n` (or anything else),
and returning immediately on `q`. -/
def reviewAux (inputs : Nat → String) : Nat → List FilteredPaper → List FilteredPaper
  | _, [] => []
  | i, fp :: rest =>
    let choice := promptChoice inputs i
    if choice = "q" then []
    else if choice = "y" then fp :: reviewAux inputs (i + 1) rest
    else reviewAux inputs (i + 1) rest

/-- Function `_interactive_review` from src/main.py; `inputs i` is the
operator's raw reply to the `i`-th prompt (0-based). -/
def interactive_review (filtered : List FilteredPaper)
    (inputs : Nat → String) : List FilteredPaper :=
  if filtered = [] then [] else reviewAux inputs 0 filtered

theorem reviewAux_enumFrom (inputs : Nat → String)
    (l : List FilteredPaper) : ∀ i, reviewAux inputs i l
      = (((List.enumFrom i l).takeWhile
            (fun p => promptChoice inputs p.1 != "q")).filter
          (fun p => promptChoice inputs p.1 == "y")).map Prod.snd := by
  induction l with
  | nil => intro i; rfl
  | cons fp rest ih =>
    intro i
    rw [List.enumFrom_cons, List.takeWhile_cons, reviewAux]
    simp only []
    by_cases hq : promptChoice inputs i = "q"
    · rw [if_pos hq]
      rw [show (promptChoice inputs (i, fp).1 != "q") = false by simp [hq]]
      simp
    · rw [if_neg hq]
      rw [show (promptChoice inputs (i, fp).1 != "q") = true by simp [hq]]
      simp only [if_true]
      rw [List.filter_cons]
      by_cases hy : promptChoice inputs i = "y"
      · rw [if_pos hy,
          show (promptChoice inputs (i, fp).1 == "y") = true by simp [hy]]
        simp only [if_true, List.map_cons]
        rw [ih (i + 1)]
      · rw [if_neg hy,
          show (promptChoice inputs (i, fp).1 == "y") = false by simp [hy]]
        simp only [Bool.false_eq_true, if_false]
        rw [ih (i + 1)]

/-- Demo data for the concrete review-loop scenario. -/
def demoFp1 : FilteredPaper :=
  { paper := { title := "Paper one", doi := "", url := "", abstract := "",
               published_date := "", journal_name := "J", authors := [] },
    matched_keywords := [] }

/-- Second demo paper. -/
def demoFp2 : FilteredPaper :=
  { paper := { title := "Paper two", doi := "", url := "", abstract := "",
               published_date := "", journal_name := "J", authors := [] },
    matched_keywords := [] }

/-- Third demo paper. -/
def demoFp3 : FilteredPaper :=
  { paper := { title := "Paper three", doi := "", url := "", abstract := "",
               published_date := "", journal_name := "J", authors := [] },
    matched_keywords := [] }

/-- Operator inputs: empty reply (defaulting to keep) then quit. -/
def demoInputs : Nat → String := fun i => if i = 0 then "" else "q"

/-- C4: the interactive review returns exactly the papers decided
`keep`, in input order, stopping at the first `quit` so that no later
paper can appear; empty input defaults to keep.  Concretely, three
papers with decisions `[default-keep, quit]` yield exactly the first
paper. -/
theorem interactive_review_spec :
    (∀ (filtered : List FilteredPaper) (inputs : Nat → String),
      interactive_review filtered inputs
        = ((filtered.enum.takeWhile
              (fun p => promptChoice inputs p.1 != "q")).filter
            (fun p => promptChoice inputs p.1 == "y")).map Prod.snd)
    ∧ interactive_review [demoFp1, demoFp2, demoFp3] demoInputs = [demoFp1]
    ∧ (interactive_review [demoFp1, demoFp2, demoFp3] demoInputs).length = 1
    ∧ demoFp3 ∉ interactive_review [demoFp1, demoFp2, demoFp3] demoInputs := by
  refine ⟨?_, by decide, by decide, by decide⟩
  intro filtered inputs
  rw [interactive_review]
  by_cases hf : filtered = []
  · rw [if_pos hf, hf]
    rfl
  · rw [if_neg hf, List.enum]
    exact reviewAux_enumFrom inputs filtered 0

/-- One author entry of a raw CrossRef work item, with the Python
`.get(..., "")` defaults already applied. -/
structure AuthorRec where
  given : String
  family : String
deriving DecidableEq

/-- A raw CrossRef work item as consumed by `_parse_item`; each field
models `item.get(...)` with its default.  A date field that is present
but lacks `date-parts` is modelled as `some [[]]` (Python's `[[]]`
default). -/
structure RawItem where
  title : List String
  doi : String
  urlField : String
  abstract : String
  published_print : Option (List (List Int))
  published_online : Option (List (List Int))
  published : Option (List (List Int))
  container_title : List String
  author : List AuthorRec
deriving DecidableEq

/-- Python's `f"{n:02d}"`: zero-pad to width two. -/
def pad2 (n : Int) : String :=
  if 0 ≤ n ∧ n ≤ 9 then "0" ++ toString n else toString n

/-- The first present date field, in the priority order
`published-print`, `published-online`, `published`. -/
def pickDateParts (it : RawItem) : Option (List (List Int)) :=
  match it.published_print with
  | some dp => some dp
  | none =>
    match it.published_online with
    | some dp => some dp
    | none => it.published

/-- Degrading date format: `YYYY-MM-DD`, `YYYY-MM` or `YYYY` depending
on how many components are present (caller guarantees at least one). -/
def formatDateParts (parts : List Int) : String :=
  if 3 ≤ parts.length then
    toString (parts.getD 0 0) ++ "-" ++ pad2 (parts.getD 1 0)
      ++ "-" ++ pad2 (parts.getD 2 0)
  else if 2 ≤ parts.length then
    toString (parts.getD 0 0) ++ "-" ++ pad2 (parts.getD 1 0)
  else toString (parts.getD 0 0)

/-- The published-date computation of `_parse_item`: empty string when
no date field is present, when `date-parts` is empty, or when its first
entry is empty. -/
def publishedDate (it : RawItem) : String :=
  match pickDateParts it with
  | none => ""
  | some dps =>
    match dps.head? with
    | none => ""
    | some parts => if parts = [] then "" else formatDateParts parts

/-- The author-name builder of `_parse_item`: `"{given} {family}"`,
family name alone when the given name is missing, skipped when both are
missing. -/
def authorName (a : AuthorRec) : Option String :=
  if a.given ≠ "" ∧ a.family ≠ "" then some (a.given ++ " " ++ a.family)
  else if a.family ≠ "" then some a.family
  else none

/-- Function `_parse_item` from src/crossref_client.py. -/
def parse_item (item : RawItem) (fallback_journal : String) : Option Paper :=
  let title0 := item.title.headD ""
  if title0 = "" then none
  else
    let title : String := ⟨collapseStrip (stripTagsE title0.data)⟩
    let url := if item.doi ≠ "" then "https://doi.org/" ++ item.doi
      else item.urlField
    let journal0 := item.container_title.headD ""
    let journal_name := if journal0 = "" then fallback_journal else journal0
    some { title := title, doi := item.doi, url := url,
           abstract := item.abstract,
           published_date := publishedDate item,
           journal_name := journal_name,
           authors := item.author.filterMap authorName }

/-- Outcome of one page request: a network/HTTP failure (a
`requests.RequestException`, raised either by the transport or by
`raise_for_status`), or a JSON body carrying `message.items` and
`message.next-cursor`. -/
inductive FetchResponse where
  | err : FetchResponse
  | ok : List RawItem → Option String → FetchResponse
deriving DecidableEq

/-- Python truthiness of `if not next_cursor`: an absent cursor or the
empty string stops pagination. -/
def cursorFalsy : Option String → Bool
  | none => true
  | some c => c == ""

/-- The pagination loop of `fetch_recent_papers`; `pages i` is the
outcome of the `i`-th HTTP request and `rows` is `params["rows"]`.
`fuel` bounds the number of iterations (the Python `while` has no such
bound; every claim below instantiates sufficient fuel). -/
def fetchLoop (pages : Nat → FetchResponse) (journal_name : String)
    (rows max_results : Nat) : Nat → Nat → List Paper → List Paper
  | 0, _, papers => papers
  | fuel + 1, i, papers =>
    if papers.length < max_results then
      match pages i with
      | .err => papers
      | .ok items nextCursor =>
        if items = [] then papers
        else
          let papers2 := papers
            ++ items.filterMap (fun it => parse_item it journal_name)
          if cursorFalsy nextCursor || items.length < rows then papers2
          else fetchLoop pages journal_name rows max_results fuel (i + 1) papers2
    else papers

/-- Function `fetch_recent_papers` from src/crossref_client.py, with the HTTP
transport and the date-window request parameters abstracted into
`pages`.  `params["rows"]` is `min(max_results, 100)` and the result is
truncated to `max_results`. -/
def fetch_recent_papers (pages : Nat → FetchResponse)
    (journal_name : String) (max_results : Nat) (fuel : Nat) : List Paper :=
  (fetchLoop pages journal_name (min max_results 100) max_results
    fuel 0 []).take max_results

/-- A parseable demo item for the pagination scenarios. -/
def demoItem : RawItem :=
  { title := ["A result"], doi := "10.1/x", urlField := "", abstract := "",
    published_print := none, published_online := none, published := none,
    container_title := [], author := [] }

/-- The paper `_parse_item` produces from `demoItem`. -/
def demoPaper : Paper :=
  { title := "A result", doi := "10.1/x", url := "https://doi.org/10.1/x",
    abstract := "", published_date := "", journal_name := "Journal",
    authors := [] }

theorem demoItem_parse : parse_item demoItem "Journal" = some demoPaper := by
  decide

theorem filterMap_replicate_some {α β : Type} {f : α → Option β} {a : α}
    {b : β} (h : f a = some b) :
    ∀ n, (List.replicate n a).filterMap f = List.replicate n b := by
  intro n
  induction n with
  | zero => rfl
  | succ n ih =>
    rw [List.replicate_succ, List.filterMap_cons, h, List.replicate_succ, ← ih]

/-- Two full pages of 100 parseable items, then an empty page. -/
def demoPages : Nat → FetchResponse := fun i =>
  if i < 2 then .ok (List.replicate 100 demoItem) (some "cursor-token")
  else .ok [] none

/-- One full page of 100 parseable items, then a failing request. -/
def demoErrPages : Nat → FetchResponse := fun i =>
  if i = 0 then .ok (List.replicate 100 demoItem) (some "cursor-token")
  else .err

/-- C3: the pagination loop never makes a further request once the
accumulated count reaches `max_results`, a page comes back empty, the
next-cursor is falsy, or a page is shorter than the requested page
size — and continues exactly when none of these hold; the returned
list never exceeds `max_results`; and on two full pages of 100
parseable items followed by an empty page with `max_results = 250` it
returns exactly 200 papers. -/
theorem fetch_recent_papers_spec :
    (∀ pages jn max_results fuel,
      (fetch_recent_papers pages jn max_results fuel).length ≤ max_results)
    ∧ (∀ pages jn rows max_results fuel i papers,
        (max_results ≤ papers.length →
          fetchLoop pages jn rows max_results (fuel + 1) i papers = papers)
        ∧ (∀ cur, papers.length < max_results → pages i = .ok [] cur →
            fetchLoop pages jn rows max_results (fuel + 1) i papers = papers)
        ∧ (∀ items cur, papers.length < max_results →
            pages i = .ok items cur → items ≠ [] → cursorFalsy cur = true →
            fetchLoop pages jn rows max_results (fuel + 1) i papers
              = papers ++ items.filterMap (fun it => parse_item it jn))
        ∧ (∀ items cur, papers.length < max_results →
            pages i = .ok items cur → items ≠ [] → items.length < rows →
            fetchLoop pages jn rows max_results (fuel + 1) i papers
              = papers ++ items.filterMap (fun it => parse_item it jn))
        ∧ (∀ items cur, papers.length < max_results →
            pages i = .ok items cur → items ≠ [] → cursorFalsy cur = false →
            rows ≤ items.length →
            fetchLoop pages jn rows max_results (fuel + 1) i papers
              = fetchLoop pages jn rows max_results fuel (i + 1)
                  (papers ++ items.filterMap (fun it => parse_item it jn))))
    ∧ (fetch_recent_papers demoPages "Journal" 250 10).length = 200 := by
  refine ⟨?_, ?_, ?_⟩
  · intro pages jn max_results fuel
    rw [fetch_recent_papers, List.length_take]
    exact Nat.min_le_left _ _
  · intro pages jn rows max_results fuel i papers
    refine ⟨?_, ?_, ?_, ?_, ?_⟩
    · intro hmax
      rw [fetchLoop, if_neg (by omega)]
    · intro cur hlen hp
      rw [fetchLoop, if_pos hlen, hp]
      simp
    · intro items cur hlen hp hne hcf
      rw [fetchLoop, if_pos hlen, hp]
      simp only [if_neg hne, hcf, Bool.true_or, if_true]
    · intro items cur hlen hp hne hrows
      rw [fetchLoop, if_pos hlen, hp]
      simp only [if_neg hne]
      rw [if_pos (by simp [hrows])]
    · intro items cur hlen hp hne hcf hrows
      rw [fetchLoop, if_pos hlen, hp]
      simp only [if_neg hne]
      rw [if_neg (by simp [hcf]; omega)]
  · set_option maxRecDepth 4096 in decide

/-- C3 witness: the loop characterisation applied at concrete states —
already-full accumulator, and an empty page. -/
theorem fetch_recent_papers_spec_witness :
    fetchLoop demoPages "Journal" 100 0 1 0 [] = []
    ∧ fetchLoop demoPages "Journal" 100 250 1 2 [] = [] :=
  ⟨(fetch_recent_papers_spec.2.1 demoPages "Journal" 100 0 0 0 []).1
      (by decide),
   (fetch_recent_papers_spec.2.1 demoPages "Journal" 100 250 0 2 []).2.1
      none (by decide) (by decide)⟩

/-- C9: a network or HTTP-status failure on a page request stops the
pagination loop without retrying that page and returns the papers
already parsed from earlier pages; concretely, one full page followed
by a failing request yields exactly the 100 papers of the first
page. -/
theorem fetch_error_partial_kept :
    (∀ pages jn rows max_results fuel i papers,
      papers.length < max_results → pages i = .err →
      fetchLoop pages jn rows max_results (fuel + 1) i papers = papers)
    ∧ (fetch_recent_papers demoErrPages "Journal" 250 10).length = 100 := by
  constructor
  · intro pages jn rows max_results fuel i papers hlen hp
    rw [fetchLoop, if_pos hlen, hp]
  · set_option maxRecDepth 4096 in decide

/-- C9 witness: the abort equation applied at a concrete failing
request. -/
theorem fetch_error_partial_kept_witness :
    fetchLoop demoErrPages "Journal" 100 250 1 1 [] = [] :=
  fetch_error_partial_kept.1 demoErrPages "Journal" 100 250 0 1 []
    (by decide) (by decide)

/-- An item whose raw title is non-empty but consists only of markup. -/
def emptyTagItem : RawItem :=
  { title := ["<i></i>"], doi := "", urlField := "", abstract := "",
    published_print := none, published_online := none, published := none,
    container_title := [], author := [] }

/-- An item with no title entry at all. -/
def noTitleItem : RawItem :=
  { title := [], doi := "", urlField := "", abstract := "",
    published_print := none, published_online := none, published := none,
    container_title := [], author := [] }

/-- C7 counterexample: `_parse_item` accepts a markup-only raw title
(the emptiness check runs before tag stripping), producing a Paper
whose stripped title is the empty string. -/
theorem parse_item_markup_title_counterexample :
    (parse_item emptyTagItem "Fallback").map Paper.title = some ""
    ∧ parse_item emptyTagItem "Fallback" ≠ none := by
  exact ⟨by decide, by decide⟩

/-- C7 (amended): `_parse_item` rejects exactly the raw items whose
title list is empty or whose first title string is empty — the check
precedes markup stripping, so a produced Paper's stripped title may be
empty — and a rejected item is silently dropped from a page's parsed
list rather than reported. -/
theorem parse_item_none_iff :
    (∀ item fb, (parse_item item fb = none ↔ item.title.headD "" = ""))
    ∧ List.filterMap (fun it => parse_item it "F") [noTitleItem] = [] := by
  constructor
  · intro item fb
    by_cases h : item.title.headD "" = ""
    · simp [parse_item, h]
    · simp [parse_item, h]
  · decide

/-- One raw journal entry of the YAML document; `name`/`issn` may be
absent. -/
structure RawJournal where
  name : Option String
  issn : Option String
deriving DecidableEq

/-- The YAML document after `yaml.safe_load`, with the `.get` defaults
applied: missing `journals`/`keywords` are empty lists, missing
`search_days`/`email` are `none`. -/
structure RawConfig where
  journals : List RawJournal
  keywords : List String
  search_days : Option Int
  email : Option String
deriving DecidableEq

/-- Dataclass `JournalConfig` from src/config.py. -/
structure JournalConfig where
  name : String
  issn : String
deriving DecidableEq

/-- Dataclass `Config` from src/config.py. -/
structure Config where
  journals : List JournalConfig
  keywords : List String
  search_days : Int
  email : String
deriving DecidableEq

/-- The journal-parsing loop of `Config.from_yaml`: every entry must
carry both `name` and `issn`, else the load fails. -/
def parseJournals : List RawJournal → Except String (List JournalConfig)
  | [] => .ok []
  | j :: rest =>
    match j.name, j.issn with
    | some n, some i =>
      match parseJournals rest with
      | .ok js => .ok ({ name := n, issn := i } :: js)
      | .error e => .error e
    | _, _ => .error "Each journal must have name and issn"

/-- Classmethod `Config.from_yaml` from src/config.py, starting after
`yaml.safe_load` (`none` models an empty/falsy document; file-system
errors are outside the model). -/
def Config.from_yaml (raw : Option RawConfig) : Except String Config :=
  match raw with
  | none => .error "Config file is empty"
  | some r =>
    match parseJournals r.journals with
    | .error e => .error e
    | .ok journals =>
      if journals = [] then .error "At least one journal must be configured"
      else if r.keywords = [] then
        .error "At least one keyword must be configured"
      else .ok { journals := journals,
                 keywords := r.keywords.filterMap (fun kw =>
                   if pyStripS kw = "" then none else some (pyStripS kw)),
                 search_days := r.search_days.getD 30,
                 email := r.email.getD "" }

/-- A raw config whose single keyword is whitespace-only. -/
def blankKeywordRaw : RawConfig :=
  { journals := [{ name := some "J", issn := some "0000-0000" }],
    keywords := [" "], search_days := none, email := none }

/-- C8 counterexample: a whitespace-only keyword passes the presence
check but is stripped away afterwards, so construction succeeds with
an empty keyword list. -/
theorem from_yaml_blank_keyword_counterexample :
    Config.from_yaml (some blankKeywordRaw)
      = .ok { journals := [{ name := "J", issn := "0000-0000" }],
              keywords := [], search_days := 30, email := "" } := by
  rfl

/-- C8 (amended): construction fails unless at least one journal and at
least one raw keyword are present, and every constructed `Config` has a
non-empty journal list; the constructed keyword list can nevertheless
be empty, when every configured keyword is whitespace-only. -/
theorem from_yaml_spec :
    (∀ r cfg, Config.from_yaml (some r) = .ok cfg →
      cfg.journals ≠ [] ∧ r.journals ≠ [] ∧ r.keywords ≠ [])
    ∧ (∀ cfg, Config.from_yaml none ≠ .ok cfg)
    ∧ (∀ r cfg, r.journals = [] → Config.from_yaml (some r) ≠ .ok cfg)
    ∧ (∀ r cfg, r.keywords = [] → Config.from_yaml (some r) ≠ .ok cfg) := by
  refine ⟨?_, ?_, ?_, ?_⟩
  · intro r cfg h
    rw [Config.from_yaml] at h
    cases hpj : parseJournals r.journals with
    | error e =>
      rw [hpj] at h
      exact absurd h (by simp)
    | ok js =>
      rw [hpj] at h
      simp only [] at h
      by_cases hjs : js = []
      · rw [if_pos hjs] at h
        exact absurd h (by simp)
      · rw [if_neg hjs] at h
        by_cases hkw : r.keywords = []
        · rw [if_pos hkw] at h
          exact absurd h (by simp)
        · rw [if_neg hkw] at h
          simp only [Except.ok.injEq] at h
          refine ⟨?_, ?_, hkw⟩
          · rw [← h]
            exact hjs
          · intro hrj
            rw [hrj] at hpj
            rw [show parseJournals [] = .ok [] from rfl] at hpj
            simp only [Except.ok.injEq] at hpj
            exact hjs hpj.symm
  · intro cfg h
    exact absurd h (by simp [Config.from_yaml])
  · intro r cfg hj h
    rw [Config.from_yaml, hj] at h
    rw [show parseJournals [] = .ok [] from rfl] at h
    simp at h
  · intro r cfg hkw h
    rw [Config.from_yaml] at h
    cases hpj : parseJournals r.journals with
    | error e =>
      rw [hpj] at h
      exact absurd h (by simp)
    | ok js =>
      rw [hpj] at h
      simp only [] at h
      by_cases hjs : js = []
      · rw [if_pos hjs] at h
        exact absurd h (by simp)
      · rw [if_neg hjs, if_pos hkw] at h
        exact absurd h (by simp)

/-- A well-formed raw config used to instantiate the C8 theorem. -/
def goodRaw : RawConfig :=
  { journals := [{ name := some "J", issn := some "0000-0000" }],
    keywords := ["gene"], search_days := some 14, email := some "a@b.c" }

/-- C8 witness: the amended theorem applied to a concrete successful
load. -/
theorem from_yaml_spec_witness :
    ({ journals := [{ name := "J", issn := "0000-0000" }],
       keywords := ["gene"], search_days := 14,
       email := "a@b.c" } : Config).journals ≠ []
    ∧ goodRaw.journals ≠ [] ∧ goodRaw.keywords ≠ [] :=
  from_yaml_spec.1 goodRaw
    { journals := [{ name := "J", issn := "0000-0000" }],
      keywords := ["gene"], search_days := 14, email := "a@b.c" } (by rfl)

/-- Python `", ".join(l)`. -/
def joinComma (l : List String) : String := String.intercalate ", " l

/-- Python `.replace("|", "\\|")` at the character level. -/
def escapePipe : List Char → List Char
  | [] => []
  | c :: rest =>
    if c = '|' then '\\' :: '|' :: escapePipe rest else c :: escapePipe rest

/-- Python `.replace` of pipe with backslash-pipe on strings (the `_safe` cell values of
`export_markdown`). -/
def escapePipeS (s : String) : String := ⟨escapePipe s.data⟩

/-- One data row of the Markdown table (the loop body of
`export_markdown`); `i` is the 1-based index. -/
def mdRow (i : Nat) (fp : FilteredPaper) : String :=
  let summary := extract_summary (some fp.paper.abstract)
  let keywords_str :=
    if fp.matched_keywords = [] then "—" else joinComma fp.matched_keywords
  let link := if fp.paper.url = "" then "—"
    else "[Link](" ++ fp.paper.url ++ ")"
  "| " ++ toString i ++ " | " ++ escapePipeS fp.paper.title ++ " | "
    ++ escapePipeS fp.paper.journal_name ++ " | " ++ escapePipeS summary
    ++ " | " ++ keywords_str ++ " | " ++ link ++ " |"

/-- The list of lines `export_markdown` writes (joined with newlines);
`today` is the formatted generation date. -/
def export_markdown_lines (fps : List FilteredPaper) (today : String) :
    List String :=
  let base := ["# Journal Club — Papers of Interest", "",
    "*Generated on " ++ today ++ " — " ++ toString fps.length
      ++ " paper(s) found*", ""]
  if fps = [] then base ++ ["No papers matched your keywords.", ""]
  else
    base ++ (["| # | Title | Journal | Summary | Keywords | Link |",
              "|---|-------|---------|---------|----------|------|"]
      ++ (fps.enum.map (fun p => mdRow (p.1 + 1) p.2)) ++ [""])

/-- The CSV header row `export_csv` writes. -/
def csvHeader : List String :=
  ["Title", "Journal", "Published", "Summary", "Keywords", "Link", "Authors"]

/-- C5 counterexample: a concrete Markdown export contains no
`Published` column — no line of the document even mentions it — and
its table header row is `| # | Title | Journal | Summary | Keywords |
Link |`. -/
theorem export_markdown_no_published :
    (export_markdown_lines [demoFp1] "2024-01-01").all
        (fun l => !containsSub ("Published".data) l.data) = true
    ∧ (export_markdown_lines [demoFp1] "2024-01-01").get? 4
        = some "| # | Title | Journal | Summary | Keywords | Link |" := by
  exact ⟨by decide, by decide⟩

/-- C5 (amended): the Markdown table's columns are `#`, Title, Journal,
Summary, Keywords, Link — the CSV's logical columns minus Authors and
minus Published, plus a leading index column. -/
theorem export_markdown_columns (fps : List FilteredPaper) (today : String)
    (h : fps ≠ []) :
    (export_markdown_lines fps today).get? 4
      = some "| # | Title | Journal | Summary | Keywords | Link |"
    ∧ csvHeader = ["Title", "Journal", "Published", "Summary", "Keywords",
        "Link", "Authors"] := by
  constructor
  · rw [export_markdown_lines]
    rw [if_neg h]
    rfl
  · rfl

/-- C5 witness: the amended theorem applied to a concrete non-empty
export. -/
theorem export_markdown_columns_witness :
    (export_markdown_lines [demoFp1] "2024-01-02").get? 4
      = some "| # | Title | Journal | Summary | Keywords | Link |"
    ∧ csvHeader = ["Title", "Journal", "Published", "Summary", "Keywords",
        "Link", "Authors"] :=
  export_markdown_columns [demoFp1] "2024-01-02" (by decide)

/-- Scan for a pipe not immediately preceded by a backslash; `prev` is
the previously seen character. -/
def escapedOkAux : Option Char → List Char → Bool
  | _, [] => true
  | prev, c :: rest =>
    if c = '|' && !(prev == some '\\') then false
    else escapedOkAux (some c) rest

/-- Every `|` in the list is immediately preceded by a backslash. -/
def escapedOk (l : List Char) : Bool := escapedOkAux none l

theorem escapedOkAux_escapePipe (s : List Char) :
    ∀ prev, escapedOkAux prev (escapePipe s) = true := by
  induction s with
  | nil => intro prev; rfl
  | cons c r ih =>
    intro prev
    by_cases hc : c = '|'
    · subst hc
      rw [show escapePipe ('|' :: r) = '\\' :: '|' :: escapePipe r from by
        rw [escapePipe, if_pos rfl]]
      rw [escapedOkAux]
      rw [if_neg (by simp)]
      rw [escapedOkAux]
      rw [if_neg (by simp)]
      exact ih (some '|')
    · rw [show escapePipe (c :: r) = c :: escapePipe r from by
        rw [escapePipe, if_neg hc]]
      rw [escapedOkAux]
      rw [if_neg (by simp [hc])]
      exact ih (some c)

/-- A filtered paper whose matched keyword contains a literal pipe. -/
def pipeKwFp : FilteredPaper :=
  { paper := { title := "T", doi := "", url := "", abstract := "",
               published_date := "", journal_name := "J", authors := [] },
    matched_keywords := ["a|b"] }

/-- C6 counterexample: a keyword cell containing `|` is written
verbatim — the row contains `a|b` and not `a\|b`, so the claim that
every cell's pipes are escaped fails. -/
theorem md_row_pipe_counterexample :
    containsSub ("a|b".data) (mdRow 1 pipeKwFp).data = true
    ∧ containsSub ("a\\|b".data) (mdRow 1 pipeKwFp).data = false
    ∧ mdRow 1 pipeKwFp
        = "| 1 | T | J | No abstract available. | a|b | — |" := by
  exact ⟨by decide, by decide, by decide⟩

/-- C6 (amended): in every Markdown data row the title, journal and
summary cells have each literal `|` escaped as `\|` (`escapePipe`
output never contains an unescaped pipe), while the keyword and link
cells are inserted verbatim. -/
theorem md_row_escape_spec :
    (∀ s : List Char, escapedOk (escapePipe s) = true)
    ∧ (∀ i fp, mdRow i fp
        = "| " ++ toString i ++ " | " ++ escapePipeS fp.paper.title ++ " | "
          ++ escapePipeS fp.paper.journal_name ++ " | "
          ++ escapePipeS (extract_summary (some fp.paper.abstract)) ++ " | "
          ++ (if fp.matched_keywords = [] then "—"
              else joinComma fp.matched_keywords) ++ " | "
          ++ (if fp.paper.url = "" then "—"
              else "[Link](" ++ fp.paper.url ++ ")") ++ " |") := by
  constructor
  · intro s
    exact escapedOkAux_escapePipe s none
  · intro i fp
    rfl
